import Mathlib

/-!
Verification of the clause / linear-dependency-segment segmenter
(`src/segmenter.py`).

The Python module works over `conll3` trees: dictionaries mapping a token's
1-based sentence position to a token record with fields `xpos` (fine-grained
morphological tag), `tag` (coarse part-of-speech tag), `kids` (child ids,
recomputed by `tree.addkids()` from the governor references), and a governor
reference exposed by `tree.idgovRel(i)` as an integer (`0` = root, `-1` =
unattached, otherwise the governor's id).

We embed trees as association lists from ids to token records, with the
governor reference as an explicit three-variant tagged value (as the integer
sentinels `0` / `-1` / `g` of `conll3` encode it).  A dictionary lookup of a
missing key yields a default (empty-string) token record here; the Python
code would raise a `KeyError` instead, a situation that does not arise on the
complete, well-formed trees the theorems quantify over.
-/

/-- Governor reference of a token: the integer sentinel of `conll3`
(`0` = root, `-1` = unattached, `g` = governed by token `g`) as a tagged
value. -/
inductive GovRef where
  | Root : GovRef
  | Governor : Nat → GovRef
  | Unattached : GovRef
deriving DecidableEq, Repr

/-- A token record: fine-grained tag (`xpos`), coarse tag (`tag`), governor
reference, and the list of child ids (`kids`). -/
structure Token where
  xpos : String
  tag : String
  gov : GovRef
  kids : List Nat
deriving DecidableEq, Repr

/-- The default record returned for an id that is not in the tree. -/
def defaultToken : Token := { xpos := "", tag := "", gov := GovRef.Unattached, kids := [] }

/-- A dependency tree: an association list from token ids (1-based sentence
positions) to token records, in sentence order. -/
structure DTree where
  toks : List (Nat × Token)
deriving DecidableEq, Repr

/-- The ids of the tree's tokens, in sentence order (`for i in tree`). -/
def DTree.ids (t : DTree) : List Nat := t.toks.map Prod.fst

/-- Number of tokens in the tree. -/
def DTree.size (t : DTree) : Nat := t.toks.length

/-- Dictionary lookup `tree[i]`, as an `Option`. -/
def DTree.find? (t : DTree) (i : Nat) : Option Token :=
  (t.toks.find? (fun p => p.1 == i)).map Prod.snd

/-- `tree[i]["xpos"]` (with the default record for a missing id). -/
def xposOf (t : DTree) (i : Nat) : String := ((t.find? i).getD defaultToken).xpos

/-- `tree[i]["tag"]` (with the default record for a missing id). -/
def tagOf (t : DTree) (i : Nat) : String := ((t.find? i).getD defaultToken).tag

/-- `tree[i]["kids"]` / `tree.get_kids(i)` (with the default record for a
missing id). -/
def kidsOf (t : DTree) (i : Nat) : List Nat := ((t.find? i).getD defaultToken).kids

/-- The token's governor reference. -/
def govOf (t : DTree) (i : Nat) : GovRef := ((t.find? i).getD defaultToken).gov

/-- `tree.idgovRel(i)[0]`: the governor reference as `conll3`'s integer
sentinel (`0` root, `-1` unattached, `g` governor id). -/
def idgov (t : DTree) (i : Nat) : Int :=
  match govOf t i with
  | GovRef.Root => 0
  | GovRef.Governor g => (g : Int)
  | GovRef.Unattached => -1

/-- `tree[g]["tag"]` where `g` is an integer governor sentinel; a negative
sentinel never names a token, so it yields the default record's tag. -/
def tagOfI (t : DTree) (g : Int) : String :=
  if 0 ≤ g then tagOf t g.toNat else ""

/-- `tree.addkids()`: recompute every token's `kids` list from the governor
references (the children of `i` are the ids whose governor reference is
`Governor i`, in sentence order). -/
def addkids (t : DTree) : DTree :=
  ⟨t.toks.map (fun p => (p.1, { p.2 with kids := t.ids.filter (fun j => govOf t j == GovRef.Governor p.1) }))⟩

/-- `is_finite_verb(tree, i)` from `src/segmenter.py`: finite verbs are
tokens with `xpos` starting `Vc`, `Vs`, `VB`, `Vi`; tokens with `xpos`
starting `Vp` unless their governor is an `AUX`; and `AUX` tokens with a
child whose `xpos` starts `Vp`. -/
def is_finite_verb (t : DTree) (i : Nat) : Bool :=
  if (xposOf t i).take 2 ∈ (["Vc", "Vs", "VB", "Vi"] : List String) then true
  else if (xposOf t i).take 2 = "Vp" then
    if idgov t i = 0 then true
    else if tagOfI t (idgov t i) ≠ "AUX" then true
    else false
  else if tagOf t i = "AUX" then
    (kidsOf t i).any (fun k => (xposOf t k).take 2 == "Vp")
  else false

/-- `is_finite_verb_or_sconj(tree, i)` from `src/segmenter.py`: a clause
anchor is a `SCONJ` governing a finite verb, or a finite verb not governed by
a `SCONJ`.  On any other token the Python function falls through and
implicitly returns `None`, which is falsy at every call site; we model that
as `false`. -/
def is_finite_verb_or_sconj (t : DTree) (i : Nat) : Bool :=
  if tagOf t i = "SCONJ" then
    (kidsOf t i).any (fun k => is_finite_verb t k)
  else if is_finite_verb t i then
    if idgov t i = 0 then true
    else if tagOfI t (idgov t i) = "SCONJ" then false
    else true
  else false

/-- `get_descendants_until_Fin_Verb(tree, i)` from `src/segmenter.py`:
collect the descendants of `i`, dropping every child that is itself an
anchor (and never expanding through it), then re-filtering each recursive
result by the same rule (the inner filter of line 94, redundant but kept).
The Python function recurses without a bound; we pass explicit fuel, and
`clause_segmentation` supplies `tree.size`, which suffices on any acyclic
tree (every chain of governor links has length at most the number of
tokens). -/
def get_descendants_until_Fin_Verb (t : DTree) : Nat → Nat → List Nat
  | 0, _ => []
  | fuel+1, i =>
    let children := (kidsOf t i).filter (fun c => !is_finite_verb_or_sconj t c)
    children ++ children.flatMap (fun c =>
      (get_descendants_until_Fin_Verb t fuel c).filter (fun z => !is_finite_verb_or_sconj t z))

/-- The `fin_verbs` list of `clause_segmentation`: the anchors, in sentence
order. -/
def fin_verbs (t2 : DTree) : List Nat :=
  t2.ids.filter (fun i => is_finite_verb_or_sconj t2 i)

/-- One clause of `clause_segmentation`: `sorted(descendants + [root])`. -/
def clauseOf (t2 : DTree) (root : Nat) : List Nat :=
  List.insertionSort (· ≤ ·) (get_descendants_until_Fin_Verb t2 t2.size root ++ [root])

/-- `clause_segmentation(tree)` from `src/segmenter.py`: recompute the kids,
list the anchors, and build one clause per anchor (an empty anchor list
yields the empty clause list). -/
def clause_segmentation (t : DTree) : List (List Nat) :=
  (fin_verbs (addkids t)).map (clauseOf (addkids t))

/-- `is_syntactic_bigram(tree, id_1, id_2)` from `src/segmenter.py`: true iff
one of the two tokens governs the other. -/
def is_syntactic_bigram (t : DTree) (id_1 id_2 : Nat) : Bool :=
  if idgov t id_1 = (id_2 : Int) then true
  else if idgov t id_2 = (id_1 : Int) then true
  else false

/-- `is_complete(tree)` from `src/segmenter.py`: false iff some token's
governor sentinel is `-1` (unattached). -/
def is_complete (t : DTree) : Bool :=
  t.ids.all (fun i => !(idgov t i == -1))

/-- `segments[-1].append(x)`: append `x` to the last segment. -/
def append_to_last (segments : List (List Nat)) (x : Nat) : List (List Nat) :=
  match segments with
  | [] => [[x]]
  | [s] => [s ++ [x]]
  | s :: rest => s :: append_to_last rest x

/-- `syntactically_linked_ngrams_1(tree, clause)` from `src/segmenter.py`:
walk the clause left to right; extend the current segment when the current
id is syntactically linked to the previous id of the clause, otherwise open
a new segment.  (On an empty clause the Python code would raise an
`IndexError` reading `clause[0]`; clauses are never empty.) -/
def syntactically_linked_ngrams_1 (t : DTree) (clause : List Nat) : List (List Nat) :=
  match clause with
  | [] => []
  | c0 :: rest =>
    (rest.foldl
      (fun st x =>
        if is_syntactic_bigram t x st.2 then (append_to_last st.1 x, x)
        else (st.1 ++ [[x]], x))
      ([[c0]], c0)).1

/-- `syntactically_linked_ngrams_2(tree, clause)` from `src/segmenter.py`:
as strategy 1, but the link additionally requires the two ids to be adjacent
in raw sentence position (`clause[i-1] + 1 == clause[i]`). -/
def syntactically_linked_ngrams_2 (t : DTree) (clause : List Nat) : List (List Nat) :=
  match clause with
  | [] => []
  | c0 :: rest =>
    (rest.foldl
      (fun st x =>
        if st.2 + 1 == x && is_syntactic_bigram t x st.2 then (append_to_last st.1 x, x)
        else (st.1 ++ [[x]], x))
      ([[c0]], c0)).1

/-! ### Governor chains and well-formedness -/

/-- One step up the governor chain (`none` at the root or an unattached
token). -/
def gstep (t : DTree) (i : Nat) : Option Nat :=
  match govOf t i with
  | GovRef.Governor g => some g
  | _ => none

/-- `k` steps up the governor chain: `govN t k d = some a` says `a` is the
`k`-th ancestor of `d`. -/
def govN (t : DTree) : Nat → Nat → Option Nat
  | 0, d => some d
  | k+1, d =>
    match gstep t d with
    | some g => govN t k g
    | none => none

/-- A well-formed tree: distinct token ids, and no governor cycles (witnessed
by a measure that strictly increases from a token to its governor). -/
def WellFormed (t : DTree) : Prop :=
  t.ids.Nodup ∧ ∃ h : Nat → Nat, ∀ j g : Nat, govOf t j = GovRef.Governor g → h j < h g

/-- `d` lies in the clause territory of `r`: some ancestor chain of length
`k ≥ 1` leads from `d` up to `r`, and neither `d` nor any token strictly
between `d` and `r` on that chain is an anchor per
`is_finite_verb_or_sconj`. -/
def DescChain (t : DTree) (r d : Nat) : Prop :=
  ∃ k : Nat, 0 < k ∧ govN t k d = some r ∧
    ∀ j, j < k → ∀ p, govN t j d = some p → is_finite_verb_or_sconj t p = false

/-! ### Basic lemmas about tree lookup -/

theorem DTree.find?_eq_none_iff (t : DTree) (i : Nat) :
    t.find? i = none ↔ i ∉ t.ids := by
  unfold DTree.find? DTree.ids
  simp only [Option.map_eq_none', List.find?_eq_none, List.mem_map, beq_iff_eq]
  constructor
  · rintro h ⟨p, hp, rfl⟩
    exact h p hp rfl
  · rintro h p hp rfl
    exact h ⟨p, hp, rfl⟩

theorem govOf_governor_mem {t : DTree} {j g : Nat}
    (h : govOf t j = GovRef.Governor g) : j ∈ t.ids := by
  by_contra hm
  rw [← DTree.find?_eq_none_iff] at hm
  simp [govOf, hm, defaultToken] at h

theorem tagOf_ne_empty_mem {t : DTree} {i : Nat} (h : tagOf t i ≠ "") : i ∈ t.ids := by
  by_contra hm
  rw [← DTree.find?_eq_none_iff] at hm
  simp [tagOf, hm, defaultToken] at h

theorem govOf_not_mem {t : DTree} {i : Nat} (h : i ∉ t.ids) :
    govOf t i = GovRef.Unattached := by
  rw [← DTree.find?_eq_none_iff] at h
  simp [govOf, h, defaultToken]

theorem idgov_eq_neg_one_iff (t : DTree) (i : Nat) :
    idgov t i = -1 ↔ govOf t i = GovRef.Unattached := by
  unfold idgov
  cases h : govOf t i <;> simp

/-! ### C10: the completeness checker -/

/-- C10: `is_complete` returns false iff some token's governor reference is
`Unattached`, and returns true on a tree with no tokens. -/
theorem is_complete_false_iff_unattached (t : DTree) :
    (is_complete t = false ↔ ∃ i ∈ t.ids, govOf t i = GovRef.Unattached) ∧
    (t.toks = [] → is_complete t = true) := by
  constructor
  · simp [is_complete, List.all_eq_false, idgov_eq_neg_one_iff]
  · intro h
    simp [is_complete, DTree.ids, h]

/-- Witness for C10 at a concrete (empty) tree. -/
theorem is_complete_false_iff_unattached_witness :
    is_complete ⟨[]⟩ = true :=
  (is_complete_false_iff_unattached ⟨[]⟩).2 rfl

/-! ### C9: the anchor classifier defaults to a negative decision -/

/-- C9: a token that is neither `SCONJ`-tagged nor a finite verb is not an
anchor (the Python function falls through, returning the falsy `None`,
modeled as `false`; no error is raised). -/
theorem not_sconj_not_finite_not_anchor (t : DTree) (i : Nat)
    (h1 : tagOf t i ≠ "SCONJ") (h2 : is_finite_verb t i = false) :
    is_finite_verb_or_sconj t i = false := by
  unfold is_finite_verb_or_sconj
  rw [if_neg h1, h2]
  simp

def w0tree : DTree := ⟨[(1, { xpos := "NN", tag := "NOUN", gov := GovRef.Root, kids := [] })]⟩

/-- Witness for C9 at a concrete noun token. -/
theorem not_sconj_not_finite_not_anchor_witness :
    tagOf w0tree 1 ≠ "SCONJ" ∧ is_finite_verb w0tree 1 = false ∧
      is_finite_verb_or_sconj w0tree 1 = false :=
  ⟨by decide, by decide, not_sconj_not_finite_not_anchor w0tree 1 (by decide) (by decide)⟩

/-! ### C6: participle (`Vp`) tokens -/

/-- C6: a `Vp`-prefixed token governed by an `AUX`-tagged token is not a
finite verb; the same token with a `Root` governor reference is finite.
(Token ids are 1-based sentence positions, so `0` names no token.) -/
theorem vp_finite_iff_gov (t : DTree) (i : Nat) (h0 : 0 ∉ t.ids)
    (hvp : (xposOf t i).take 2 = "Vp") :
    (∀ g, govOf t i = GovRef.Governor g → tagOf t g = "AUX" →
      is_finite_verb t i = false) ∧
    (govOf t i = GovRef.Root → is_finite_verb t i = true) := by
  have hnot4 : (xposOf t i).take 2 ∉ (["Vc", "Vs", "VB", "Vi"] : List String) := by
    rw [hvp]; decide
  constructor
  · intro g hg htag
    have hgmem : g ∈ t.ids := tagOf_ne_empty_mem (by rw [htag]; decide)
    have hg0 : g ≠ 0 := fun h => h0 (h ▸ hgmem)
    have hid : idgov t i = (g : Int) := by unfold idgov; rw [hg]
    unfold is_finite_verb
    rw [if_neg hnot4, if_pos hvp, hid]
    have hz : ¬((g : Int) = 0) := by exact_mod_cast hg0
    rw [if_neg hz]
    have htg : tagOfI t (g : Int) = tagOf t g := by
      unfold tagOfI
      rw [if_pos (by positivity)]
      simp
    rw [htg, htag]
    simp
  · intro hr
    have hid : idgov t i = 0 := by unfold idgov; rw [hr]
    unfold is_finite_verb
    rw [if_neg hnot4, if_pos hvp, hid]
    simp

def w6tree : DTree :=
  ⟨[(1, { xpos := "VpQW---XR-AA---", tag := "VERB", gov := GovRef.Governor 2, kids := [] }),
    (2, { xpos := "VB-S---1P-AA---", tag := "AUX", gov := GovRef.Root, kids := [1] })]⟩

/-- Witness for C6 at a concrete participle governed by an auxiliary. -/
theorem vp_finite_iff_gov_witness :
    0 ∉ w6tree.ids ∧ (xposOf w6tree 1).take 2 = "Vp" ∧
      ((∀ g, govOf w6tree 1 = GovRef.Governor g → tagOf w6tree g = "AUX" →
          is_finite_verb w6tree 1 = false) ∧
        (govOf w6tree 1 = GovRef.Root → is_finite_verb w6tree 1 = true)) :=
  ⟨by decide, by decide, vp_finite_iff_gov w6tree 1 (by decide) (by decide)⟩

/-! ### C7: auxiliaries and their participle children

The claim as stated fails on the code: `is_finite_verb_or_sconj` also
consults the auxiliary's own `xpos` (the first two branches of
`is_finite_verb`) and its governor's tag, so an `AUX` token with a `Vp`
child that is governed by a `SCONJ` is *not* an anchor, and an `AUX` token
without a `Vp` child but with e.g. a `VB` `xpos` *is* an anchor. -/

def c7tree : DTree :=
  ⟨[(1, { xpos := "--", tag := "AUX", gov := GovRef.Governor 2, kids := [3] }),
    (2, { xpos := "J,-------------", tag := "SCONJ", gov := GovRef.Root, kids := [1] }),
    (3, { xpos := "VpQW---XR-AA---", tag := "VERB", gov := GovRef.Governor 1, kids := [] })]⟩

/-- C7 counterexample: an `AUX`-tagged token with a `Vp`-prefixed child that
is nevertheless not an anchor (its governor is a `SCONJ`). -/
theorem aux_vp_child_not_anchor_counterexample :
    tagOf c7tree 1 = "AUX" ∧
      (∃ k, k ∈ kidsOf c7tree 1 ∧ (xposOf c7tree k).take 2 = "Vp") ∧
      is_finite_verb_or_sconj c7tree 1 = false :=
  ⟨by decide, ⟨3, by decide, by decide⟩, by decide⟩

/-- C7 as amended: for an `AUX`-tagged token whose own `xpos` does not start
with any of the five verbal patterns (so the auxiliary rule decides
finiteness): if it has a `Vp`-prefixed child and its governor is not a
`SCONJ`-tagged token then it is an anchor, and if it has no `Vp`-prefixed
child then it is not an anchor. -/
theorem aux_anchor_iff_vp_child_amended (t : DTree) (i : Nat)
    (h1 : tagOf t i = "AUX")
    (h2 : (xposOf t i).take 2 ∉ (["Vc", "Vs", "VB", "Vi", "Vp"] : List String)) :
    ((∃ k, k ∈ kidsOf t i ∧ (xposOf t k).take 2 = "Vp") →
      (∀ g, govOf t i = GovRef.Governor g → tagOf t g ≠ "SCONJ") →
      is_finite_verb_or_sconj t i = true) ∧
    ((¬ ∃ k, k ∈ kidsOf t i ∧ (xposOf t k).take 2 = "Vp") →
      is_finite_verb_or_sconj t i = false) := by
  have hnot4 : (xposOf t i).take 2 ∉ (["Vc", "Vs", "VB", "Vi"] : List String) := by
    intro hm
    apply h2
    simp only [List.mem_cons, List.not_mem_nil, or_false] at hm ⊢
    rcases hm with h | h | h | h
    · exact Or.inl h
    · exact Or.inr (Or.inl h)
    · exact Or.inr (Or.inr (Or.inl h))
    · exact Or.inr (Or.inr (Or.inr (Or.inl h)))
  have hvpne : (xposOf t i).take 2 ≠ "Vp" := by
    intro hm
    exact h2 (by rw [hm]; decide)
  have hfin : is_finite_verb t i =
      (kidsOf t i).any (fun k => (xposOf t k).take 2 == "Vp") := by
    unfold is_finite_verb
    rw [if_neg hnot4, if_neg hvpne, if_pos h1]
  have hsconj : tagOf t i ≠ "SCONJ" := by rw [h1]; decide
  constructor
  · rintro ⟨k, hk, hxp⟩ hgov
    have hany : (kidsOf t i).any (fun k => (xposOf t k).take 2 == "Vp") = true :=
      List.any_eq_true.mpr ⟨k, hk, by simp [hxp]⟩
    unfold is_finite_verb_or_sconj
    rw [if_neg hsconj, hfin, hany]
    simp only [if_true]
    cases hgi : govOf t i with
    | Root =>
      have : idgov t i = 0 := by unfold idgov; rw [hgi]
      rw [this]
      simp
    | Governor g =>
      have hid : idgov t i = (g : Int) := by unfold idgov; rw [hgi]
      rw [hid]
      by_cases hg0 : g = 0
      · subst hg0
        simp
      · have hz : ¬((g : Int) = 0) := by exact_mod_cast hg0
        rw [if_neg hz]
        have htg : tagOfI t (g : Int) = tagOf t g := by
          unfold tagOfI
          rw [if_pos (by positivity)]
          simp
        rw [htg, if_neg (hgov g hgi)]
    | Unattached =>
      have hid : idgov t i = -1 := by unfold idgov; rw [hgi]
      rw [hid]
      norm_num [tagOfI]
      decide
  · intro hno
    have hany : (kidsOf t i).any (fun k => (xposOf t k).take 2 == "Vp") = false := by
      rw [List.any_eq_false]
      intro k hk
      simp only [beq_iff_eq]
      exact fun hx => hno ⟨k, hk, hx⟩
    unfold is_finite_verb_or_sconj
    rw [if_neg hsconj, hfin, hany]
    simp

def w7tree : DTree :=
  ⟨[(1, { xpos := "--", tag := "AUX", gov := GovRef.Root, kids := [2] }),
    (2, { xpos := "VpQW---XR-AA---", tag := "VERB", gov := GovRef.Governor 1, kids := [] })]⟩

/-- Witness for the amended C7 at a concrete root auxiliary. -/
theorem aux_anchor_iff_vp_child_amended_witness :
    tagOf w7tree 1 = "AUX" ∧
      (xposOf w7tree 1).take 2 ∉ (["Vc", "Vs", "VB", "Vi", "Vp"] : List String) ∧
      (((∃ k, k ∈ kidsOf w7tree 1 ∧ (xposOf w7tree k).take 2 = "Vp") →
          (∀ g, govOf w7tree 1 = GovRef.Governor g → tagOf w7tree g ≠ "SCONJ") →
          is_finite_verb_or_sconj w7tree 1 = true) ∧
        ((¬ ∃ k, k ∈ kidsOf w7tree 1 ∧ (xposOf w7tree k).take 2 = "Vp") →
          is_finite_verb_or_sconj w7tree 1 = false)) :=
  ⟨by decide, by decide, aux_anchor_iff_vp_child_amended w7tree 1 (by decide) (by decide)⟩

/-! ### Lemmas about `addkids` -/

theorem addkids_ids (t : DTree) : (addkids t).ids = t.ids := by
  unfold addkids DTree.ids
  rw [List.map_map]
  rfl

theorem find?_map_structure (l : List (Nat × Token)) (f : Nat → Token → Token) (i : Nat) :
    (l.map (fun p => (p.1, f p.1 p.2))).find? (fun p => p.1 == i) =
      (l.find? (fun p => p.1 == i)).map (fun p => (p.1, f p.1 p.2)) := by
  induction l with
  | nil => rfl
  | cons p l ih =>
    by_cases h : p.1 = i
    · simp [List.find?, h]
    · simp only [List.map_cons, List.find?]
      rw [show ((p.1 == i) = false) from beq_eq_false_iff_ne.mpr h]
      simpa using ih

theorem addkids_find? (t : DTree) (i : Nat) :
    (addkids t).find? i = (t.find? i).map
      (fun tok => { tok with kids := t.ids.filter (fun j => govOf t j == GovRef.Governor i) }) := by
  unfold addkids DTree.find?
  rw [find?_map_structure t.toks
    (fun a tok => { tok with kids := t.ids.filter (fun j => govOf t j == GovRef.Governor a) }) i]
  cases h : t.toks.find? (fun p => p.1 == i) with
  | none => rfl
  | some p =>
    have hp : p.1 = i := by
      have := List.find?_some h
      simpa using this
    simp [hp]

theorem addkids_govOf (t : DTree) (i : Nat) : govOf (addkids t) i = govOf t i := by
  unfold govOf
  rw [addkids_find?]
  cases t.find? i <;> rfl

theorem addkids_kidsOf_mem (t : DTree) (i : Nat) (hi : i ∈ t.ids) (d : Nat) :
    d ∈ kidsOf (addkids t) i ↔ govOf t d = GovRef.Governor i := by
  unfold kidsOf
  rw [addkids_find?]
  cases h : t.find? i with
  | none =>
    rw [DTree.find?_eq_none_iff] at h
    exact absurd hi h
  | some tok =>
    simp [List.mem_filter]
    intro hg
    exact govOf_governor_mem hg

theorem addkids_kidsOf_not_mem (t : DTree) (i : Nat) (hi : i ∉ t.ids) :
    kidsOf (addkids t) i = [] := by
  unfold kidsOf
  rw [addkids_find?]
  rw [(DTree.find?_eq_none_iff t i).mpr hi]
  rfl

theorem addkids_size (t : DTree) : (addkids t).size = t.size := by
  unfold addkids DTree.size
  simp

/-! ### C8: a tree without anchors yields no clauses -/

/-- C8: if no token of the tree is an anchor per `is_finite_verb_or_sconj`
(evaluated, as `clause_segmentation` does, after recomputing the kids), the
segmentation is the empty clause list; being a total function, it raises no
error. -/
theorem no_anchor_no_clause (t : DTree)
    (h : ∀ i ∈ t.ids, is_finite_verb_or_sconj (addkids t) i = false) :
    clause_segmentation t = [] := by
  unfold clause_segmentation fin_verbs
  rw [addkids_ids]
  rw [List.filter_eq_nil_iff.mpr (fun i hi => by simp [h i hi])]
  rfl

/-- Witness for C8 at a concrete one-noun tree. -/
theorem no_anchor_no_clause_witness :
    (∀ i ∈ w0tree.ids, is_finite_verb_or_sconj (addkids w0tree) i = false) ∧
      clause_segmentation w0tree = [] :=
  ⟨by decide, no_anchor_no_clause w0tree (by decide)⟩

/-! ### C1 and C2: the two linear-dependency-segmentation strategies -/

theorem append_to_last_flatten (segs : List (List Nat)) (x : Nat) :
    (append_to_last segs x).flatten = segs.flatten ++ [x] := by
  induction segs with
  | nil => simp [append_to_last]
  | cons s rest ih =>
    cases rest with
    | nil => simp [append_to_last]
    | cons b l => simp [append_to_last, ih]

theorem append_to_last_no_nil (segs : List (List Nat)) (x : Nat) (h : [] ∉ segs) :
    [] ∉ append_to_last segs x := by
  induction segs with
  | nil => simp [append_to_last]
  | cons s rest ih =>
    cases rest with
    | nil =>
      simp only [append_to_last, List.mem_singleton]
      intro he
      exact (List.append_ne_nil_of_right_ne_nil s (by simp) he.symm).elim
    | cons b l =>
      simp only [append_to_last]
      intro hmem
      rcases List.mem_cons.mp hmem with he | hm
      · cases he
        exact h (List.mem_cons_self _ _)
      · exact ih (fun hx => h (List.mem_cons_of_mem s hx)) hm

theorem append_to_last_ne_nil (segs : List (List Nat)) (x : Nat) :
    append_to_last segs x ≠ [] := by
  cases segs with
  | nil => simp [append_to_last]
  | cons s rest => cases rest <;> simp [append_to_last]

theorem append_to_last_length (segs : List (List Nat)) (x : Nat) (h : segs ≠ []) :
    (append_to_last segs x).length = segs.length := by
  induction segs with
  | nil => exact absurd rfl h
  | cons s rest ih =>
    cases rest with
    | nil => simp [append_to_last]
    | cons b l => simp [append_to_last, ih]

theorem seg_foldl_flatten (cond : Nat → Nat → Bool) (l : List Nat) :
    ∀ (segs : List (List Nat)) (p : Nat),
      ((l.foldl (fun st x =>
          if cond st.2 x then (append_to_last st.1 x, x)
          else (st.1 ++ [[x]], x)) (segs, p)).1).flatten = segs.flatten ++ l := by
  induction l with
  | nil => simp
  | cons x xs ih =>
    intro segs p
    simp only [List.foldl_cons]
    by_cases h : cond p x = true
    · rw [if_pos h, ih (append_to_last segs x) x, append_to_last_flatten]
      simp
    · rw [if_neg h, ih (segs ++ [[x]]) x]
      simp

theorem seg_foldl_no_nil (cond : Nat → Nat → Bool) (l : List Nat) :
    ∀ (segs : List (List Nat)) (p : Nat), [] ∉ segs →
      [] ∉ (l.foldl (fun st x =>
          if cond st.2 x then (append_to_last st.1 x, x)
          else (st.1 ++ [[x]], x)) (segs, p)).1 := by
  induction l with
  | nil => intro segs p h; simpa using h
  | cons x xs ih =>
    intro segs p h
    simp only [List.foldl_cons]
    by_cases hc : cond p x = true
    · rw [if_pos hc]
      exact ih (append_to_last segs x) x (append_to_last_no_nil segs x h)
    · rw [if_neg hc]
      refine ih (segs ++ [[x]]) x ?_
      simp only [List.mem_append, List.mem_singleton]
      push_neg
      exact ⟨h, by simp⟩

theorem seg_foldl_length_le (cond1 cond2 : Nat → Nat → Bool)
    (himp : ∀ a b, cond2 a b = true → cond1 a b = true) (l : List Nat) :
    ∀ (segs1 segs2 : List (List Nat)) (p : Nat), segs1 ≠ [] → segs2 ≠ [] →
      segs1.length ≤ segs2.length →
      ((l.foldl (fun st x =>
          if cond1 st.2 x then (append_to_last st.1 x, x)
          else (st.1 ++ [[x]], x)) (segs1, p)).1).length ≤
      ((l.foldl (fun st x =>
          if cond2 st.2 x then (append_to_last st.1 x, x)
          else (st.1 ++ [[x]], x)) (segs2, p)).1).length := by
  induction l with
  | nil => intro segs1 segs2 p _ _ hle; simpa using hle
  | cons x xs ih =>
    intro segs1 segs2 p h1 h2 hle
    simp only [List.foldl_cons]
    by_cases hc2 : cond2 p x = true
    · have hc1 : cond1 p x = true := himp p x hc2
      rw [if_pos hc1, if_pos hc2]
      exact ih (append_to_last segs1 x) (append_to_last segs2 x) x
        (append_to_last_ne_nil segs1 x) (append_to_last_ne_nil segs2 x)
        (by rw [append_to_last_length segs1 x h1, append_to_last_length segs2 x h2]; exact hle)
    · rw [if_neg hc2]
      by_cases hc1 : cond1 p x = true
      · rw [if_pos hc1]
        refine ih (append_to_last segs1 x) (segs2 ++ [[x]]) x
          (append_to_last_ne_nil segs1 x) (by simp) ?_
        rw [append_to_last_length segs1 x h1]
        simp only [List.length_append, List.length_singleton]
        omega
      · rw [if_neg hc1]
        refine ih (segs1 ++ [[x]]) (segs2 ++ [[x]]) x (by simp) (by simp) ?_
        simp only [List.length_append, List.length_singleton]
        omega

/-- C1: on a non-empty, strictly ascending clause of valid token ids, both
strategies return segments that are all non-empty and whose concatenation,
in order, is exactly the input clause. -/
theorem segments_partition_clause (t : DTree) (clause : List Nat)
    (hne : clause ≠ []) (hsorted : List.Sorted (· < ·) clause)
    (hval : ∀ x ∈ clause, x ∈ t.ids) :
    ((syntactically_linked_ngrams_1 t clause).flatten = clause ∧
      [] ∉ syntactically_linked_ngrams_1 t clause) ∧
    ((syntactically_linked_ngrams_2 t clause).flatten = clause ∧
      [] ∉ syntactically_linked_ngrams_2 t clause) := by
  cases clause with
  | nil => exact absurd rfl hne
  | cons c0 rest =>
    refine ⟨⟨?_, ?_⟩, ⟨?_, ?_⟩⟩
    · exact seg_foldl_flatten (fun p x => is_syntactic_bigram t x p) rest [[c0]] c0
    · exact seg_foldl_no_nil (fun p x => is_syntactic_bigram t x p) rest [[c0]] c0 (by simp)
    · exact seg_foldl_flatten (fun p x => p + 1 == x && is_syntactic_bigram t x p) rest [[c0]] c0
    · exact seg_foldl_no_nil (fun p x => p + 1 == x && is_syntactic_bigram t x p) rest [[c0]] c0
        (by simp)

/-- Witness for C1 at a concrete tree and clause. -/
theorem segments_partition_clause_witness :
    (([1, 2] : List Nat) ≠ [] ∧ List.Sorted (· < ·) [1, 2] ∧
      (∀ x ∈ ([1, 2] : List Nat), x ∈ w6tree.ids)) ∧
    (((syntactically_linked_ngrams_1 w6tree [1, 2]).flatten = [1, 2] ∧
        [] ∉ syntactically_linked_ngrams_1 w6tree [1, 2]) ∧
      ((syntactically_linked_ngrams_2 w6tree [1, 2]).flatten = [1, 2] ∧
        [] ∉ syntactically_linked_ngrams_2 w6tree [1, 2])) :=
  ⟨⟨by decide, by decide, by decide⟩,
    segments_partition_clause w6tree [1, 2] (by decide) (by decide) (by decide)⟩

/-- C2: on a non-empty clause, strategy 2 produces at least as many segments
as strategy 1 (its linking condition requires strategy 1's and sentence
adjacency besides). -/
theorem strategy2_ge_strategy1_segments (t : DTree) (clause : List Nat)
    (hne : clause ≠ []) :
    (syntactically_linked_ngrams_1 t clause).length ≤
      (syntactically_linked_ngrams_2 t clause).length := by
  cases clause with
  | nil => exact absurd rfl hne
  | cons c0 rest =>
    have := seg_foldl_length_le (fun p x => is_syntactic_bigram t x p)
      (fun p x => p + 1 == x && is_syntactic_bigram t x p)
      (fun a b h => by simp only [Bool.and_eq_true] at h; exact h.2) rest [[c0]] [[c0]] c0
      (by simp) (by simp) (le_refl _)
    exact this

/-- Witness for C2 at a concrete tree and clause. -/
theorem strategy2_ge_strategy1_segments_witness :
    (([1, 2] : List Nat) ≠ []) ∧
      (syntactically_linked_ngrams_1 w6tree [1, 2]).length ≤
        (syntactically_linked_ngrams_2 w6tree [1, 2]).length :=
  ⟨by decide, strategy2_ge_strategy1_segments w6tree [1, 2] (by decide)⟩

/-! ### Governor-chain lemmas -/

theorem gstep_eq_some_iff (t : DTree) (d g : Nat) :
    gstep t d = some g ↔ govOf t d = GovRef.Governor g := by
  unfold gstep
  cases govOf t d <;> simp

theorem govN_one (t : DTree) (d : Nat) : govN t 1 d = gstep t d := by
  unfold govN
  cases gstep t d <;> rfl

theorem govN_add (t : DTree) (a b : Nat) :
    ∀ d, govN t (a + b) d = (govN t a d).bind (govN t b) := by
  induction a with
  | zero => intro d; simp [govN]
  | succ a ih =>
    intro d
    rw [show a + 1 + b = (a + b) + 1 by omega]
    cases hg : gstep t d with
    | none => simp [govN, hg]
    | some g => simp [govN, hg, ih g]

theorem govN_succ_top (t : DTree) (k d r : Nat) :
    govN t (k + 1) d = some r ↔ ∃ c, govN t k d = some c ∧ gstep t c = some r := by
  rw [govN_add t k 1 d]
  simp [Option.bind_eq_some, govN_one]

theorem govN_isSome_of_le (t : DTree) {j k d r : Nat} (hjk : j ≤ k)
    (hk : govN t k d = some r) : ∃ p, govN t j d = some p := by
  rw [show k = j + (k - j) by omega, govN_add] at hk
  cases hp : govN t j d with
  | none => rw [hp] at hk; simp at hk
  | some p => exact ⟨p, rfl⟩

theorem govN_lt_of_measure {t : DTree} {h : Nat → Nat}
    (hm : ∀ j g : Nat, govOf t j = GovRef.Governor g → h j < h g) :
    ∀ (k : Nat), ∀ d r : Nat, govN t k d = some r → 0 < k → h d < h r := by
  intro k
  induction k with
  | zero => intro d r _ hk; omega
  | succ k ih =>
    intro d r hg _
    cases hs : gstep t d with
    | none => simp [govN, hs] at hg
    | some g =>
      have hdg : h d < h g := hm d g ((gstep_eq_some_iff t d g).mp hs)
      have hg2 : govN t k g = some r := by
        rw [show k + 1 = k + 1 from rfl] at hg
        simpa [govN, hs] using hg
      rcases Nat.eq_zero_or_pos k with h0 | hpos
      · subst h0
        simp [govN] at hg2
        subst hg2
        exact hdg
      · exact lt_trans hdg (ih g r hg2 hpos)

theorem govN_unique_hit_aux {t : DTree} {h : Nat → Nat}
    (hm : ∀ j g : Nat, govOf t j = GovRef.Governor g → h j < h g)
    {k1 k2 d r : Nat} (hle : k1 ≤ k2)
    (h1 : govN t k1 d = some r) (h2 : govN t k2 d = some r) : k1 = k2 := by
  rw [show k2 = k1 + (k2 - k1) by omega, govN_add, h1] at h2
  simp only [Option.some_bind] at h2
  rcases Nat.eq_zero_or_pos (k2 - k1) with h0 | hpos
  · omega
  · exact absurd (govN_lt_of_measure hm (k2 - k1) r r h2 hpos) (lt_irrefl _)

theorem govN_unique_hit {t : DTree} {h : Nat → Nat}
    (hm : ∀ j g : Nat, govOf t j = GovRef.Governor g → h j < h g)
    {k1 k2 d r : Nat}
    (h1 : govN t k1 d = some r) (h2 : govN t k2 d = some r) : k1 = k2 := by
  rcases Nat.le_total k1 k2 with hle | hle
  · exact govN_unique_hit_aux hm hle h1 h2
  · exact (govN_unique_hit_aux hm hle h2 h1).symm

/-! ### Soundness of the descendant collector -/

theorem getDesc_not_anchor (t : DTree) (F r d : Nat)
    (hd : d ∈ get_descendants_until_Fin_Verb t F r) :
    is_finite_verb_or_sconj t d = false := by
  cases F with
  | zero => simp [get_descendants_until_Fin_Verb] at hd
  | succ F =>
    simp only [get_descendants_until_Fin_Verb] at hd
    rw [List.mem_append] at hd
    rcases hd with hd | hd
    · have := (List.mem_filter.mp hd).2
      simpa using this
    · obtain ⟨c, _, hdc⟩ := List.mem_flatMap.mp hd
      have := (List.mem_filter.mp hdc).2
      simpa using this

theorem mem_getDesc_sound (t : DTree)
    (hkids : ∀ i d : Nat, d ∈ kidsOf t i ↔ (i ∈ t.ids ∧ govOf t d = GovRef.Governor i)) :
    ∀ (F r d : Nat), d ∈ get_descendants_until_Fin_Verb t F r → DescChain t r d := by
  intro F
  induction F with
  | zero => intro r d hd; simp [get_descendants_until_Fin_Verb] at hd
  | succ F ih =>
    intro r d hd
    simp only [get_descendants_until_Fin_Verb] at hd
    rw [List.mem_append] at hd
    rcases hd with hd | hd
    · rw [List.mem_filter] at hd
      obtain ⟨hdk, hna⟩ := hd
      have hgov := ((hkids r d).mp hdk).2
      refine ⟨1, by omega, ?_, ?_⟩
      · rw [govN_one]
        exact (gstep_eq_some_iff t d r).mpr hgov
      · intro j hj p hp
        have hj0 : j = 0 := by omega
        subst hj0
        simp only [govN, Option.some.injEq] at hp
        subst hp
        simpa using hna
    · rw [List.mem_flatMap] at hd
      obtain ⟨c, hc, hdc⟩ := hd
      rw [List.mem_filter] at hc hdc
      obtain ⟨hck, hcna⟩ := hc
      obtain ⟨hdrec, hdna⟩ := hdc
      have hcgov := ((hkids r c).mp hck).2
      obtain ⟨k, hk, hchain, hnon⟩ := ih c d hdrec
      refine ⟨k + 1, by omega, ?_, ?_⟩
      · rw [govN_succ_top]
        exact ⟨c, hchain, (gstep_eq_some_iff t c r).mpr hcgov⟩
      · intro j hj p hp
        rcases Nat.lt_succ_iff_lt_or_eq.mp hj with hj | hj
        · exact hnon j hj p hp
        · subst hj
          rw [hchain] at hp
          cases hp
          simpa using hcna

/-! ### The recomputed kids lists, as `clause_segmentation` uses them -/

theorem find?_isSome_of_mem (t : DTree) (i : Nat) (hi : i ∈ t.ids) :
    ∃ tok, t.find? i = some tok := by
  cases h : t.find? i with
  | none => exact absurd hi ((DTree.find?_eq_none_iff t i).mp h)
  | some tok => exact ⟨tok, rfl⟩

theorem addkids_kidsOf_eq (t : DTree) (i : Nat) (hi : i ∈ t.ids) :
    kidsOf (addkids t) i = t.ids.filter (fun j => govOf t j == GovRef.Governor i) := by
  obtain ⟨tok, htok⟩ := find?_isSome_of_mem t i hi
  unfold kidsOf
  rw [addkids_find?, htok]
  rfl

theorem addkids_kids_iff (t : DTree) (i d : Nat) :
    d ∈ kidsOf (addkids t) i ↔
      (i ∈ (addkids t).ids ∧ govOf (addkids t) d = GovRef.Governor i) := by
  rw [addkids_ids, addkids_govOf]
  by_cases hi : i ∈ t.ids
  · rw [addkids_kidsOf_eq t i hi]
    simp only [List.mem_filter, beq_iff_eq]
    constructor
    · rintro ⟨_, hg⟩
      exact ⟨hi, hg⟩
    · rintro ⟨_, hg⟩
      exact ⟨govOf_governor_mem hg, hg⟩
  · rw [addkids_kidsOf_not_mem t i hi]
    simp [hi]

theorem addkids_kids_nodup (t : DTree) (hnd : t.ids.Nodup) (i : Nat) :
    (kidsOf (addkids t) i).Nodup := by
  by_cases hi : i ∈ t.ids
  · rw [addkids_kidsOf_eq t i hi]
    exact hnd.filter _
  · rw [addkids_kidsOf_not_mem t i hi]
    exact List.nodup_nil

theorem anchor_mem (t : DTree) (i : Nat)
    (h : is_finite_verb_or_sconj t i = true) : i ∈ t.ids := by
  by_contra hm
  have hfind := (DTree.find?_eq_none_iff t i).mpr hm
  have htag : tagOf t i = "" := by simp [tagOf, hfind, defaultToken]
  have hxpos : xposOf t i = "" := by simp [xposOf, hfind, defaultToken]
  have hfv : is_finite_verb t i = false := by
    unfold is_finite_verb
    rw [hxpos, htag]
    rw [if_neg (by decide : ¬("".take 2 ∈ (["Vc", "Vs", "VB", "Vi"] : List String)))]
    rw [if_neg (by decide : ¬("".take 2 = "Vp"))]
    rw [if_neg (by decide : ¬(("" : String) = "AUX"))]
  rw [not_sconj_not_finite_not_anchor t i (by rw [htag]; decide) hfv] at h
  exact Bool.false_ne_true h

theorem ids_length (t : DTree) : t.ids.length = t.size := by
  simp [DTree.ids, DTree.size]

/-! ### No duplicates in the collected descendants -/

theorem getDesc_nodup (t : DTree)
    (hkids : ∀ i d : Nat, d ∈ kidsOf t i ↔ (i ∈ t.ids ∧ govOf t d = GovRef.Governor i))
    (hknd : ∀ i : Nat, (kidsOf t i).Nodup)
    {h : Nat → Nat} (hm : ∀ j g : Nat, govOf t j = GovRef.Governor g → h j < h g) :
    ∀ (F r : Nat), (get_descendants_until_Fin_Verb t F r).Nodup := by
  intro F
  induction F with
  | zero => intro r; simp [get_descendants_until_Fin_Verb]
  | succ F ih =>
    intro r
    simp only [get_descendants_until_Fin_Verb]
    rw [List.nodup_append]
    have hchnd : ((kidsOf t r).filter (fun c => !is_finite_verb_or_sconj t c)).Nodup :=
      (hknd r).filter _
    refine ⟨hchnd, ?_, ?_⟩
    · rw [List.nodup_flatMap]
      constructor
      · intro c _
        exact (ih c).filter _
      · rw [List.pairwise_iff_forall_sublist]
        intro c1 c2 hsub
        have hmemc1 : c1 ∈ (kidsOf t r).filter (fun c => !is_finite_verb_or_sconj t c) :=
          hsub.subset (by simp)
        have hmemc2 : c2 ∈ (kidsOf t r).filter (fun c => !is_finite_verb_or_sconj t c) :=
          hsub.subset (by simp)
        have hne : c1 ≠ c2 := by
          have hnd2 : ([c1, c2] : List Nat).Nodup := hsub.nodup hchnd
          simp only [List.nodup_cons, List.mem_singleton, List.nodup_nil] at hnd2
          exact hnd2.1
        intro x hx1 hx2
        have hx1d := (List.mem_filter.mp hx1).1
        have hx2d := (List.mem_filter.mp hx2).1
        obtain ⟨k1, hk1, hchain1, _⟩ := mem_getDesc_sound t hkids F c1 x hx1d
        obtain ⟨k2, hk2, hchain2, _⟩ := mem_getDesc_sound t hkids F c2 x hx2d
        have hg1 : govOf t c1 = GovRef.Governor r :=
          ((hkids r c1).mp (List.mem_filter.mp hmemc1).1).2
        have hg2 : govOf t c2 = GovRef.Governor r :=
          ((hkids r c2).mp (List.mem_filter.mp hmemc2).1).2
        have ht1 : govN t (k1 + 1) x = some r :=
          (govN_succ_top t k1 x r).mpr ⟨c1, hchain1, (gstep_eq_some_iff t c1 r).mpr hg1⟩
        have ht2 : govN t (k2 + 1) x = some r :=
          (govN_succ_top t k2 x r).mpr ⟨c2, hchain2, (gstep_eq_some_iff t c2 r).mpr hg2⟩
        have hk12 : k1 + 1 = k2 + 1 := govN_unique_hit hm ht1 ht2
        have : c1 = c2 := by
          have hkk : k1 = k2 := by omega
          subst hkk
          rw [hchain1] at hchain2
          exact (Option.some.injEq _ _).mp hchain2
        exact hne this
    · intro x hx1 hx2
      have hgx : govOf t x = GovRef.Governor r :=
        ((hkids r x).mp (List.mem_filter.mp hx1).1).2
      have ht1 : govN t 1 x = some r := by
        rw [govN_one]
        exact (gstep_eq_some_iff t x r).mpr hgx
      obtain ⟨c, hc, hxc⟩ := List.mem_flatMap.mp hx2
      have hxcd := (List.mem_filter.mp hxc).1
      obtain ⟨k, hk, hchain, _⟩ := mem_getDesc_sound t hkids F c x hxcd
      have hgc : govOf t c = GovRef.Governor r :=
        ((hkids r c).mp (List.mem_filter.mp hc).1).2
      have ht2 : govN t (k + 1) x = some r :=
        (govN_succ_top t k x r).mpr ⟨c, hchain, (gstep_eq_some_iff t c r).mpr hgc⟩
      have : 1 = k + 1 := govN_unique_hit hm ht1 ht2
      omega

/-! ### A governor chain cannot be longer than the tree -/

theorem chain_le_size (t : DTree) {h : Nat → Nat}
    (hm : ∀ j g : Nat, govOf t j = GovRef.Governor g → h j < h g)
    {k d r : Nat} (hk : govN t k d = some r) : k ≤ t.size := by
  have hsome : ∀ j, j < k → ∃ p, govN t j d = some p := fun j hj =>
    govN_isSome_of_le t (le_of_lt hj) hk
  have hmemids : ∀ j, j < k → (govN t j d).getD 0 ∈ t.ids := by
    intro j hj
    obtain ⟨p, hp⟩ := hsome j hj
    obtain ⟨q, hq⟩ := govN_isSome_of_le t (by omega : j + 1 ≤ k) hk
    obtain ⟨c, hc, hcs⟩ := (govN_succ_top t j d q).mp hq
    rw [hp] at hc
    cases hc
    rw [hp]
    simp only [Option.getD_some]
    exact govOf_governor_mem ((gstep_eq_some_iff t p q).mp hcs)
  have hinj : ∀ x ∈ List.range k, ∀ y ∈ List.range k,
      (fun j => (govN t j d).getD 0) x = (fun j => (govN t j d).getD 0) y → x = y := by
    intro x hx y hy hxy
    rw [List.mem_range] at hx hy
    obtain ⟨px, hpx⟩ := hsome x hx
    obtain ⟨py, hpy⟩ := hsome y hy
    simp only [hpx, hpy, Option.getD_some] at hxy
    subst hxy
    exact govN_unique_hit hm hpx hpy
  have hLnd : ((List.range k).map (fun j => (govN t j d).getD 0)).Nodup :=
    List.Nodup.map_on hinj (List.nodup_range k)
  have hsub : ((List.range k).map (fun j => (govN t j d).getD 0)) ⊆ t.ids := by
    intro x hx
    obtain ⟨j, hj, rfl⟩ := List.mem_map.mp hx
    exact hmemids j (List.mem_range.mp hj)
  have hlen := (List.subperm_of_subset hLnd hsub).length_le
  rw [List.length_map, List.length_range, ids_length] at hlen
  exact hlen

/-! ### Completeness of the descendant collector (with enough fuel) -/

theorem chain_mem_getDesc (t : DTree)
    (hkids : ∀ i d : Nat, d ∈ kidsOf t i ↔ (i ∈ t.ids ∧ govOf t d = GovRef.Governor i)) :
    ∀ (k F r d : Nat), k ≤ F → 0 < k → govN t k d = some r →
      (∀ j, j < k → ∀ p, govN t j d = some p → is_finite_verb_or_sconj t p = false) →
      r ∈ t.ids → d ∈ get_descendants_until_Fin_Verb t F r := by
  intro k
  induction k with
  | zero => intro F r d _ h0; omega
  | succ k ih =>
    intro F r d hkF hpos hchain hnon hr
    obtain ⟨F', rfl⟩ : ∃ F', F = F' + 1 := ⟨F - 1, by omega⟩
    obtain ⟨c, hc, hcs⟩ := (govN_succ_top t k d r).mp hchain
    have hgovc : govOf t c = GovRef.Governor r := (gstep_eq_some_iff t c r).mp hcs
    have hdna : is_finite_verb_or_sconj t d = false :=
      hnon 0 (by omega) d (by simp [govN])
    rcases Nat.eq_zero_or_pos k with h0 | hposk
    · subst h0
      simp only [govN, Option.some.injEq] at hc
      subst hc
      simp only [get_descendants_until_Fin_Verb]
      apply List.mem_append_left
      rw [List.mem_filter]
      exact ⟨(hkids r d).mpr ⟨hr, hgovc⟩, by simp [hdna]⟩
    · have hcna : is_finite_verb_or_sconj t c = false := hnon k (by omega) c hc
      have hdmem := ih F' c d (by omega) hposk hc
        (fun j hj p hp => hnon j (by omega) p hp) (govOf_governor_mem hgovc)
      simp only [get_descendants_until_Fin_Verb]
      apply List.mem_append_right
      rw [List.mem_flatMap]
      refine ⟨c, ?_, ?_⟩
      · rw [List.mem_filter]
        exact ⟨(hkids r c).mpr ⟨hr, hgovc⟩, by simp [hcna]⟩
      · rw [List.mem_filter]
        exact ⟨hdmem, by simp [hdna]⟩

/-! ### C4: characterization of the clause boundary -/

/-- C4: for a well-formed tree and an anchor `r`, the ids collected by
`get_descendants_until_Fin_Verb` (as `clause_segmentation` invokes it) are
exactly the descendants `d` of `r` such that neither `d` nor any token on
the governor path strictly between `r` and `d` is an anchor, and the clause
built for `r` consists exactly of `r` together with those ids. -/
theorem clause_boundary_charact (t : DTree) (hwf : WellFormed t) (r : Nat)
    (hanc : is_finite_verb_or_sconj (addkids t) r = true) :
    (∀ d, d ∈ get_descendants_until_Fin_Verb (addkids t) (addkids t).size r ↔
        DescChain (addkids t) r d) ∧
    (∀ d, d ∈ clauseOf (addkids t) r ↔ (d = r ∨ DescChain (addkids t) r d)) := by
  obtain ⟨hnd, h, hmeas⟩ := hwf
  have hm2 : ∀ j g : Nat, govOf (addkids t) j = GovRef.Governor g → h j < h g := by
    intro j g hg
    rw [addkids_govOf] at hg
    exact hmeas j g hg
  have hkids2 := addkids_kids_iff t
  have hrmem : r ∈ (addkids t).ids := anchor_mem (addkids t) r hanc
  have hiff : ∀ d, d ∈ get_descendants_until_Fin_Verb (addkids t) (addkids t).size r ↔
      DescChain (addkids t) r d := by
    intro d
    constructor
    · exact mem_getDesc_sound (addkids t) hkids2 _ r d
    · rintro ⟨k, hk, hchain, hnon⟩
      have hle : k ≤ (addkids t).size := chain_le_size (addkids t) hm2 hchain
      exact chain_mem_getDesc (addkids t) hkids2 k _ r d hle hk hchain hnon hrmem
  refine ⟨hiff, ?_⟩
  intro d
  rw [clauseOf, List.Perm.mem_iff (List.perm_insertionSort _ _),
    List.mem_append, List.mem_singleton, hiff d]
  tauto

def w1tree : DTree :=
  ⟨[(1, { xpos := "VB-S---3P-AA---", tag := "VERB", gov := GovRef.Root, kids := [] })]⟩

theorem w1tree_wf : WellFormed w1tree := by
  refine ⟨by decide, ⟨fun _ => 0, ?_⟩⟩
  intro j g hg
  have hmem : j ∈ w1tree.ids := govOf_governor_mem hg
  have hj : j = 1 := by simpa [w1tree, DTree.ids] using hmem
  subst hj
  have hroot : govOf w1tree 1 = GovRef.Root := rfl
  rw [hroot] at hg
  cases hg

/-- Witness for C4 at a concrete one-verb tree. -/
theorem clause_boundary_charact_witness :
    WellFormed w1tree ∧ is_finite_verb_or_sconj (addkids w1tree) 1 = true ∧
      ((∀ d, d ∈ get_descendants_until_Fin_Verb (addkids w1tree) (addkids w1tree).size 1 ↔
          DescChain (addkids w1tree) 1 d) ∧
        (∀ d, d ∈ clauseOf (addkids w1tree) 1 ↔ (d = 1 ∨ DescChain (addkids w1tree) 1 d))) :=
  ⟨w1tree_wf, by decide, clause_boundary_charact w1tree w1tree_wf 1 (by decide)⟩

/-! ### C3: each clause is strictly ascending and sits below its anchor -/

/-- C3: for a well-formed tree, the `j`-th clause (built from the `j`-th
anchor `r`) is strictly ascending with no duplicates, contains `r`, and all
its other ids are descendants of `r` (some positive number of governor
steps leads from them up to `r`). -/
theorem clause_sorted_anchor_descendants (t : DTree) (hwf : WellFormed t)
    (j : Nat) (r : Nat) (clause : List Nat)
    (hr : (fin_verbs (addkids t))[j]? = some r)
    (hc : (clause_segmentation t)[j]? = some clause) :
    List.Sorted (· < ·) clause ∧ r ∈ clause ∧
      ∀ d ∈ clause, d ≠ r → ∃ k, 0 < k ∧ govN (addkids t) k d = some r := by
  obtain ⟨hnd, h, hmeas⟩ := hwf
  have hm2 : ∀ j g : Nat, govOf (addkids t) j = GovRef.Governor g → h j < h g := by
    intro a b hg
    rw [addkids_govOf] at hg
    exact hmeas a b hg
  have hkids2 := addkids_kids_iff t
  have hknd2 := addkids_kids_nodup t hnd
  have hcc : clause = clauseOf (addkids t) r := by
    unfold clause_segmentation at hc
    rw [List.getElem?_map, hr] at hc
    simpa using hc.symm
  have hrin : r ∈ fin_verbs (addkids t) := List.getElem?_mem hr
  have hranc : is_finite_verb_or_sconj (addkids t) r = true :=
    (List.mem_filter.mp hrin).2
  have hDnd : (get_descendants_until_Fin_Verb (addkids t) (addkids t).size r).Nodup :=
    getDesc_nodup (addkids t) hkids2 hknd2 hm2 _ r
  have hrD : r ∉ get_descendants_until_Fin_Verb (addkids t) (addkids t).size r := by
    intro hmem
    have hfalse := getDesc_not_anchor (addkids t) _ r r hmem
    rw [hranc] at hfalse
    cases hfalse
  have hDrnd : (get_descendants_until_Fin_Verb (addkids t) (addkids t).size r ++ [r]).Nodup := by
    rw [List.nodup_append]
    refine ⟨hDnd, List.nodup_singleton r, ?_⟩
    intro x hx hxr
    rw [List.mem_singleton] at hxr
    subst hxr
    exact hrD hx
  have hperm : List.Perm (clauseOf (addkids t) r)
      (get_descendants_until_Fin_Verb (addkids t) (addkids t).size r ++ [r]) :=
    List.perm_insertionSort _ _
  have hclnd : (clauseOf (addkids t) r).Nodup := hperm.nodup_iff.mpr hDrnd
  have hsorted : List.Sorted (· ≤ ·) (clauseOf (addkids t) r) :=
    List.sorted_insertionSort _ _
  refine ⟨?_, ?_, ?_⟩
  · rw [hcc]
    exact List.Sorted.lt_of_le hsorted hclnd
  · rw [hcc, List.Perm.mem_iff hperm]
    simp
  · intro d hd hdr
    rw [hcc, List.Perm.mem_iff hperm, List.mem_append, List.mem_singleton] at hd
    rcases hd with hd | hd
    · obtain ⟨k, hk, hchain, _⟩ := mem_getDesc_sound (addkids t) hkids2 _ r d hd
      exact ⟨k, hk, hchain⟩
    · exact absurd hd hdr

/-- Witness for C3 at a concrete one-verb tree. -/
theorem clause_sorted_anchor_descendants_witness :
    WellFormed w1tree ∧ (fin_verbs (addkids w1tree))[0]? = some 1 ∧
      (clause_segmentation w1tree)[0]? = some [1] ∧
      (List.Sorted (· < ·) [1] ∧ 1 ∈ ([1] : List Nat) ∧
        ∀ d ∈ ([1] : List Nat), d ≠ 1 → ∃ k, 0 < k ∧ govN (addkids w1tree) k d = some 1) :=
  ⟨w1tree_wf, by decide, by decide,
    clause_sorted_anchor_descendants w1tree w1tree_wf 0 1 [1] (by decide) (by decide)⟩

/-! ### C5: clauses from distinct anchors are disjoint -/

/-- C5: for a well-formed tree, two clauses returned at distinct positions
(hence built from distinct anchors) share no token id. -/
theorem clauses_disjoint (t : DTree) (hwf : WellFormed t) (i j : Nat)
    (ci cj : List Nat) (hne : i ≠ j)
    (hi : (clause_segmentation t)[i]? = some ci)
    (hj : (clause_segmentation t)[j]? = some cj) :
    ∀ x, x ∈ ci → x ∈ cj → False := by
  obtain ⟨hnd, h, hmeas⟩ := hwf
  have hkids2 := addkids_kids_iff t
  have hnd2 : (addkids t).ids.Nodup := by
    rw [addkids_ids]
    exact hnd
  unfold clause_segmentation at hi hj
  rw [List.getElem?_map] at hi hj
  obtain ⟨ri, hri, hci⟩ := Option.map_eq_some'.mp hi
  obtain ⟨rj, hrj, hcj⟩ := Option.map_eq_some'.mp hj
  subst hci
  subst hcj
  have hfnd : (fin_verbs (addkids t)).Nodup := hnd2.filter _
  have hrimem : ri ∈ fin_verbs (addkids t) := List.getElem?_mem hri
  have hrjmem : rj ∈ fin_verbs (addkids t) := List.getElem?_mem hrj
  have hranci : is_finite_verb_or_sconj (addkids t) ri = true :=
    (List.mem_filter.mp hrimem).2
  have hrancj : is_finite_verb_or_sconj (addkids t) rj = true :=
    (List.mem_filter.mp hrjmem).2
  have hrij : ri ≠ rj := by
    intro he
    subst he
    apply hne
    obtain ⟨hilt, hig⟩ := List.getElem?_eq_some_iff.mp hri
    obtain ⟨hjlt, hjg⟩ := List.getElem?_eq_some_iff.mp hrj
    have hinj := List.nodup_iff_injective_get.mp hfnd
    have : (⟨i, hilt⟩ : Fin (fin_verbs (addkids t)).length) = ⟨j, hjlt⟩ := by
      apply hinj
      show (fin_verbs (addkids t)).get ⟨i, hilt⟩ = (fin_verbs (addkids t)).get ⟨j, hjlt⟩
      simp only [List.get_eq_getElem]
      rw [hig, hjg]
    exact congrArg Fin.val this
  intro x hx1 hx2
  rw [clauseOf, List.Perm.mem_iff (List.perm_insertionSort _ _),
    List.mem_append, List.mem_singleton] at hx1 hx2
  rcases hx1 with hx1 | hx1 <;> rcases hx2 with hx2 | hx2
  · obtain ⟨k1, hk1, hch1, hnon1⟩ := mem_getDesc_sound (addkids t) hkids2 _ ri x hx1
    obtain ⟨k2, hk2, hch2, hnon2⟩ := mem_getDesc_sound (addkids t) hkids2 _ rj x hx2
    rcases lt_trichotomy k1 k2 with hlt | heq | hlt
    · have := hnon2 k1 hlt ri hch1
      rw [hranci] at this
      cases this
    · subst heq
      rw [hch1] at hch2
      cases hch2
      exact hrij rfl
    · have := hnon1 k2 hlt rj hch2
      rw [hrancj] at this
      cases this
  · subst hx2
    have := getDesc_not_anchor (addkids t) _ ri x hx1
    rw [hrancj] at this
    cases this
  · subst hx1
    have := getDesc_not_anchor (addkids t) _ rj x hx2
    rw [hranci] at this
    cases this
  · subst hx1
    exact hrij hx2

def w2tree : DTree :=
  ⟨[(1, { xpos := "VB-S---3P-AA---", tag := "VERB", gov := GovRef.Root, kids := [] }),
    (2, { xpos := "VB-S---1P-AA---", tag := "VERB", gov := GovRef.Governor 1, kids := [] })]⟩

theorem w2tree_wf : WellFormed w2tree := by
  refine ⟨by decide, ⟨fun n => 3 - n, ?_⟩⟩
  intro j g hg
  have hmem : j ∈ w2tree.ids := govOf_governor_mem hg
  have hj : j = 1 ∨ j = 2 := by simpa [w2tree, DTree.ids] using hmem
  rcases hj with hj | hj <;> subst hj
  · have hroot : govOf w2tree 1 = GovRef.Root := rfl
    rw [hroot] at hg
    cases hg
  · have hgov : govOf w2tree 2 = GovRef.Governor 1 := rfl
    rw [hgov] at hg
    cases hg
    decide

/-- Witness for C5 at a concrete two-verb tree with two clauses. -/
theorem clauses_disjoint_witness :
    WellFormed w2tree ∧ (0 : Nat) ≠ 1 ∧
      (clause_segmentation w2tree)[0]? = some [1] ∧
      (clause_segmentation w2tree)[1]? = some [2] ∧
      (∀ x, x ∈ ([1] : List Nat) → x ∈ ([2] : List Nat) → False) :=
  ⟨w2tree_wf, by decide, by decide, by decide,
    clauses_disjoint w2tree w2tree_wf 0 1 [1] [2] (by decide) (by decide) (by decide)⟩
